import Mathlib

/-!
Verification development for the path-safety and search core of a
filesystem tool server. Strings from the source are modelled as lists of
characters (`Str`); the POSIX platform branch is modelled (`path.sep = '/'`,
no case folding), matching the non-Windows code paths. Filesystem state
(`fs.existsSync`, `fs.realpathSync`) is modelled as an explicit `FS` record;
external-library calls (the `ignore` npm package's matcher, `JSON.parse`)
are modelled as abstract predicates respectively pre-parsed line values.
-/

/-- Strings are modelled as lists of characters. -/
abbrev Str := List Char

/-- Whitespace test used by JavaScript `trim`/`trimStart`/`trimEnd`
(restricted to the ASCII whitespace characters relevant here). -/
def isWSChar (c : Char) : Bool :=
  c == ' ' || c == '\t' || c == '\n' || c == '\r' || c == '\x0b' || c == '\x0c'

/-- JavaScript `String.prototype.trimStart`. -/
def jsTrimStart (s : Str) : Str := s.dropWhile isWSChar

/-- JavaScript `String.prototype.trimEnd`. -/
def jsTrimEnd (s : Str) : Str := (s.reverse.dropWhile isWSChar).reverse

/-- JavaScript `String.prototype.trim`. -/
def jsTrim (s : Str) : Str := jsTrimEnd (jsTrimStart s)

/-- Split a string on `'/'` (used to model POSIX path segmentation).
Always returns at least one (possibly empty) piece. -/
def splitOnSlash : Str → List Str
  | [] => [[]]
  | c :: cs =>
    if c = '/' then [] :: splitOnSlash cs
    else (c :: (splitOnSlash cs).headD []) :: (splitOnSlash cs).tail

/-- The nonempty segments of a path string. -/
def segments (s : Str) : List Str := (splitOnSlash s).filter (fun seg => seg ≠ [])

/-- One step of `path.normalize` segment processing for absolute paths:
`.` is dropped, `..` pops the last kept segment (or is dropped at the
root), anything else is kept.  The accumulator holds kept segments in
reverse order. -/
def normStep (acc : List Str) (seg : Str) : List Str :=
  if seg = ['.'] then acc
  else if seg = ['.', '.'] then acc.tail
  else seg :: acc

/-- Normalized segment list of a path interpreted as absolute. -/
def normSegsOf (s : Str) : List Str := ((segments s).foldl normStep []).reverse

/-- Join segments with `'/'`. -/
def joinSegs : List Str → Str
  | [] => []
  | [s] => s
  | s :: rest => s ++ '/' :: joinSegs rest

/-- Rebuild an absolute path from segments. -/
def mkAbs (segs : List Str) : Str := '/' :: joinSegs segs

/-- Model of Node `path.normalize` on absolute POSIX paths (trailing
separators are dropped; `.`/`..` are collapsed). -/
def normalizeAbs (s : Str) : Str := mkAbs (normSegsOf s)

/-- Model of Node `path.isAbsolute` on POSIX. -/
def strIsAbsolute (p : Str) : Bool := p.head? == some '/'

/-- Model of `path.normalize(root + path.sep)` for an already normalized
`root`: appends a `'/'` unless the root is `"/"` itself. -/
def withTrailingSlash (r : Str) : Str := if r = ['/'] then r else r ++ ['/']

/-- Model of Node `path.resolve(cwd, p)` for an absolute `cwd`. -/
def pathResolve (cwd p : Str) : Str :=
  normalizeAbs (if strIsAbsolute p then p else cwd ++ '/' :: p)

/-- Segment-level core of Node `path.relative`. -/
def relSegs : List Str → List Str → List Str
  | [], ts => ts
  | f :: fs, [] => (f :: fs).map (fun _ => ['.', '.'])
  | f :: fs, t :: ts =>
    if f = t then relSegs fs ts
    else ((f :: fs).map (fun _ => ['.', '.'])) ++ t :: ts

/-- Model of Node `path.relative(base, target)` for absolute arguments. -/
def pathRelative (base target : Str) : Str :=
  joinSegs (relSegs (normSegsOf base) (normSegsOf target))

/-- Model of `toPosixPath` from `workspace.ts`: on POSIX, splitting on the
separator and re-joining with `'/'` is the identity. -/
def toPosixPath (p : Str) : Str := p

/-- Model of Node `path.posix.basename`. -/
def posixBasename (p : Str) : Str := (segments p).getLastD []

/-- Filesystem oracle: which paths exist, and what `fs.realpathSync`
returns for them (`none` models a thrown error). -/
structure FS where
  existsSync : Str → Bool
  realpathSync : Str → Option Str

/-- Model of `getRootReal` from `workspace.ts`: `fs.realpathSync(root)`
with the root itself as a fallback when it throws. (The process-lifetime
cache only memoizes this pure value.) -/
def getRootReal (fs : FS) (root : Str) : Str := (fs.realpathSync root).getD root

/-- Fueled loop of `findNearestExistingAncestor`, walking the segment
list upward. Fuel is the initial segment count, which bounds the walk. -/
def fneaGo (fs : FS) : Nat → List Str → List Str
  | 0, _ => []
  | _ + 1, [] => []
  | fuel + 1, s :: rest =>
    if fs.existsSync (mkAbs (s :: rest)) then s :: rest
    else fneaGo fs fuel (s :: rest).dropLast

/-- Model of `findNearestExistingAncestor` from `workspace.ts`: the
nearest ancestor of `p` (itself included, `"/"` as last resort) that
exists on disk. -/
def findNearestExistingAncestor (fs : FS) (p : Str) : Str :=
  mkAbs (fneaGo fs (normSegsOf p).length (normSegsOf p))

/-- Literal-containment half of `isWithinRoot` (POSIX branch, no case
folding): the normalized path starts with `root + '/'` or equals it. -/
def literalWithin (absPath root : Str) : Bool :=
  let norm := normalizeAbs absPath
  let rootNorm := normalizeAbs root
  (withTrailingSlash rootNorm).isPrefixOf norm || norm == rootNorm

/-- Symlink-escape half of `isWithinRoot`: the canonical form of the
nearest existing ancestor of the path must be contained in the canonical
form of the root. -/
def canonicalWithin (fs : FS) (absPath root : Str) : Bool :=
  let norm := normalizeAbs absPath
  let rootReal := getRootReal fs root
  let rootRealNorm := normalizeAbs rootReal
  let existing := findNearestExistingAncestor fs norm
  let existingReal := (fs.realpathSync existing).getD existing
  let existingRealNorm := normalizeAbs existingReal
  (withTrailingSlash rootRealNorm).isPrefixOf existingRealNorm ||
    existingRealNorm == rootRealNorm

/-- Model of `isWithinRoot` from `workspace.ts`: literal containment
followed by the symlink-escape check (the code's early `return false`
is the `&&`). -/
def isWithinRoot (fs : FS) (absPath root : Str) : Bool :=
  literalWithin absPath root && canonicalWithin fs absPath root

/-- Result record of `resolveWithinWorkspace`. -/
structure Resolved where
  absPath : Str
  root : Str
deriving DecidableEq

/-- The normalized absolute candidate path `resolveWithinWorkspace`
tests against the roots: relative inputs are resolved against the
primary (first) root. -/
def resolveCandidate (roots : List Str) (p : Str) : Str :=
  normalizeAbs (if strIsAbsolute p then p else roots.headD ['/'] ++ '/' :: p)

/-- Model of `resolveWithinWorkspace` from `workspace.ts`: return the
normalized path together with the first root containing it, or throw
(modelled as `Except.error` carrying the caller-supplied path). -/
def resolveWithinWorkspace (fs : FS) (roots : List Str) (p : Str) :
    Except Str Resolved :=
  let norm := resolveCandidate roots p
  match roots.find? (fun root => isWithinRoot fs norm root) with
  | some root => .ok ⟨norm, root⟩
  | none => .error p

/-- Model of `isSensitivePath` from `workspace.ts`. -/
def isSensitivePath (relPosix : Str) : Bool :=
  if relPosix = ['.'] then false
  else if relPosix == ".git".data || (".git/".data).isPrefixOf relPosix
      || relPosix == ".hg".data || (".hg/".data).isPrefixOf relPosix
      || relPosix == ".svn".data || (".svn/".data).isPrefixOf relPosix then
    true
  else posixBasename relPosix == ".env".data

/-- Model of `Array.from(new Set(xs))`: deduplicate keeping the first
occurrence of each element, in order. -/
def setDedup : List Str → List Str
  | [] => []
  | x :: xs => x :: (setDedup xs).filter (fun y => y != x)

/-- Model of `initWorkspaceRoots` from `workspace.ts`. The primary root
(computed by `initPrimaryRoot` from environment, CLI, git discovery or
the cwd — external input) is a parameter; extras come from the roots
environment variable and the `--roots` flag, are resolved, filtered
against the primary, and deduplicated via a JS `Set`. -/
def initWorkspaceRoots (primary : Str) (envRoots argRoots : List Str)
    (cwd : Str) : List Str :=
  let extras := ((envRoots ++ argRoots).map (pathResolve cwd)).filter
    (fun e => e != primary)
  setDedup (primary :: extras)

/-- Model of `setWorkspaceRoot` from `workspace.ts`: installs a
single-element root list. -/
def setWorkspaceRoot (cwd root : Str) : List Str := [pathResolve cwd root]

/-- Model of `setWorkspaceRoots` from `workspace.ts`: an empty input is
ignored (previous roots kept); otherwise the entries are resolved and
installed verbatim — no deduplication. -/
def setWorkspaceRoots (cwd : Str) (prev roots : List Str) : List Str :=
  if roots.isEmpty then prev else roots.map (pathResolve cwd)

/-- Block reasons of the path-policy layer (`path-policy.ts`). -/
inductive PathPolicyBlockReason where
  | sensitive
  | ignored
deriving DecidableEq

/-- Policy context from `path-policy.ts`. The compiled matcher of the
external `ignore` library is modelled as an abstract predicate. -/
structure PathPolicyContext where
  respectGitIgnore : Bool
  ignoreFilter : Option (Str → Bool)

/-- Per-request ignore-override flags (`CommonFileFilteringOptions`). -/
structure CommonFileFilteringOptions where
  no_ignore : Option Bool
  respect_git_ignore : Option Bool
  ffo_respect_git_ignore : Option Bool

/-- Model of `resolveRespectGitIgnore` from `path-policy.ts`:
`no_ignore = true` wins, else the explicit boolean, else the nested
options boolean, else the context default (`outsideWorkspace !== true`). -/
def resolveRespectGitIgnore (options : Option CommonFileFilteringOptions)
    (outsideWorkspaceDefault : Option Bool) : Bool :=
  match options with
  | some o =>
    if o.no_ignore == some true then false
    else
      match o.respect_git_ignore with
      | some b => b
      | none =>
        match o.ffo_respect_git_ignore with
        | some b => b
        | none => outsideWorkspaceDefault != some true
  | none => outsideWorkspaceDefault != some true

/-- Model of `getPathPolicyBlockReason` from `path-policy.ts`. -/
def getPathPolicyBlockReason (relPosix : Str) (policy : PathPolicyContext) :
    Option PathPolicyBlockReason :=
  if relPosix == ['.'] || relPosix == [] then none
  else if isSensitivePath relPosix then some .sensitive
  else if policy.respectGitIgnore &&
      (match policy.ignoreFilter with | some f => f relPosix | none => false) then
    some .ignored
  else none

/-- Model of `prefixGitIgnorePattern` from `ignore.ts`: rewrite one line
of a nested ignore file so that it is relative to the workspace root. -/
def prefixGitIgnorePattern (relDirPosix line : Str) : Option Str :=
  if jsTrim line = [] then none
  else if (jsTrimStart line).head? = some '#' then none
  else
    let isNegated := line.head? = some '!'
    let raw := if isNegated then line.tail else line
    if relDirPosix = [] then some line
    else
      let isAnchored := raw.head? = some '/'
      let body := if isAnchored then raw.tail else raw
      let bodyNoTrailingSlash :=
        if body.getLast? = some '/' then body.dropLast else body
      let hasPathSeparator := bodyNoTrailingSlash.contains '/'
      let prefixed :=
        if isAnchored then relDirPosix ++ '/' :: body
        else if hasPathSeparator then relDirPosix ++ '/' :: body
        else relDirPosix ++ "/**/".data ++ body
      some (if isNegated then '!' :: prefixed else prefixed)

/-- Output modes of the `ripgrep` tool. -/
inductive OutputMode where
  | full
  | filesOnly
  | countOnly
deriving DecidableEq

/-- One stdout line of the ripgrep subprocess as seen after JSON
parsing: whitespace-only, unparseable, or a parsed event. -/
inductive RgLine where
  | blank
  | unparsed
  | event (etype : Str) (pathText : Str) (lineNumber : Nat) (linesText : Str)

/-- A match record accumulated by `ripgrepTool` (`ripgrep.ts`). -/
structure RgMatchRec where
  filePath : Str
  absoluteFilePath : Str
  lineNumber : Nat
  line : Str
deriving DecidableEq

/-- Mutable accumulator of `ripgrepTool`'s streaming consumer. -/
structure RgState where
  matchList : List RgMatchRec
  matchedFiles : List Str
  matchCount : Nat
  truncated : Bool
  killed : Bool
deriving DecidableEq

/-- Model of `handleJsonLine` from `ripgrep.ts`: drop blank and
unparseable lines, enforce the hard match cap, drop non-match events and
sensitive paths (before counting), then record the match; reaching the
cap sets `truncated` and kills the subprocess. -/
def handleJsonLine (root baseDir : Str) (maxMatches : Nat)
    (outputMode : OutputMode) (st : RgState) (l : RgLine) : RgState :=
  match l with
  | .blank => st
  | .unparsed => st
  | .event etype pathText lineNumber linesText =>
    if st.truncated ∨ st.matchCount ≥ maxMatches then st
    else if etype ≠ "match".data then st
    else
      let absFile := pathResolve baseDir pathText
      let relPosix := toPosixPath (pathRelative root absFile)
      if isSensitivePath relPosix then st
      else
        let newCount := st.matchCount + 1
        let newFiles :=
          if st.matchedFiles.contains relPosix then st.matchedFiles
          else st.matchedFiles ++ [relPosix]
        let newMatches :=
          match outputMode with
          | .full =>
            st.matchList ++ [⟨relPosix, absFile, lineNumber, jsTrimEnd linesText⟩]
          | _ => st.matchList
        if newCount ≥ maxMatches then ⟨newMatches, newFiles, newCount, true, true⟩
        else ⟨newMatches, newFiles, newCount, st.truncated, st.killed⟩

/-- Outcomes of `ripgrepTool` after the subprocess stream has been
consumed (`ripgrep.ts`, from the `if (aborted)` check onward). -/
inductive RipgrepOutcome where
  | abortedOutcome
  | noMatches (stderr : Str)
  | results (found : List RgMatchRec) (truncated : Bool)
deriving DecidableEq

/-- Model of `ripgrepTool`'s final dispatch: an aborted run returns the
explicit aborted outcome; otherwise zero collected matches yield the
no-matches response, else the result set. -/
def ripgrepFinal (aborted : Bool) (st : RgState) (stderr : Str) :
    RipgrepOutcome :=
  if aborted then .abortedOutcome
  else if st.matchCount = 0 then .noMatches stderr
  else .results st.matchList st.truncated

/-- Ordering on `ripgrepTool` matches within one file. -/
def lineNumLe (a b : RgMatchRec) : Prop := a.lineNumber ≤ b.lineNumber

instance : DecidableRel lineNumLe := fun a b =>
  inferInstanceAs (Decidable (a.lineNumber ≤ b.lineNumber))

/-- Model of `ripgrepTool`'s full-output grouping (`ripgrep.ts`): a JS
`Map` keyed by file path keeps keys in first-insertion order, and each
per-file bucket is sorted by line number. -/
def ripgrepByFile (ms : List RgMatchRec) : List (Str × List RgMatchRec) :=
  (setDedup (ms.map (fun m => m.filePath))).map
    (fun f => (f, List.insertionSort lineNumLe (ms.filter (fun m => m.filePath == f))))

/-- A match collected by `parseRipgrepJson` / `fallbackSearch`
(`GrepMatch` in the search tool source). -/
structure GrepMatch where
  filePath : Str
  lineNumber : Nat
  line : Str
deriving DecidableEq

/-- One stdout line of the subprocess as seen by `parseRipgrepJson`'s
`handleLine`; field texts are optional to model the `match.path?.text`
truthiness guards. -/
inductive RgJsonLine where
  | blank
  | unparsed
  | event (etype : Str) (pathText : Option Str) (lineNumber : Nat)
      (linesText : Option Str)

/-- JS truthiness of an optional string: present and nonempty. -/
def truthyText : Option Str → Bool
  | some (_ :: _) => true
  | _ => false

/-- Accumulator of `parseRipgrepJson`. -/
structure PState where
  matchList : List GrepMatch
  truncated : Bool
deriving DecidableEq

/-- Model of `handleLine` from `parseRipgrepJson`: skip blank and
unparseable lines; once `truncated` or the cap is reached, skip
everything; record match events with truthy path and line text; reaching
the cap sets `truncated` (and kills the subprocess). -/
def handleLine (maxMatches : Nat) (st : PState) (l : RgJsonLine) : PState :=
  match l with
  | .blank => st
  | .unparsed => st
  | .event etype pathText lineNumber linesText =>
    if st.truncated ∨ st.matchList.length ≥ maxMatches then st
    else if etype ≠ "match".data then st
    else if truthyText pathText && truthyText linesText then
      let newMatches :=
        st.matchList ++ [⟨pathText.getD [], lineNumber, jsTrimEnd (linesText.getD [])⟩]
      ⟨newMatches, if newMatches.length ≥ maxMatches then true else st.truncated⟩
    else st

/-- Run `handleLine` over a whole stream of parsed lines. -/
def parseRun (maxMatches : Nat) (ls : List RgJsonLine) : PState :=
  ls.foldl (handleLine maxMatches) ⟨[], false⟩

/-- A stream line that `handleLine` counts as a match when reached below
the cap: a match event with truthy path and line text. -/
def countableLine : RgJsonLine → Bool
  | .event etype pathText _ linesText =>
    etype == "match".data && truthyText pathText && truthyText linesText
  | _ => false

/-- Model of `parseRipgrepJson`'s return: an aborted run reports an
empty match list (with whatever `truncated` value was reached) and no
aborted marker. -/
def parseFinal (aborted : Bool) (st : PState) : PState :=
  if aborted then ⟨[], st.truncated⟩ else st

/-- Comparator of `formatCompactMatchesOutput`: file path (modelled as
code-point lexicographic order for `localeCompare`), then line number. -/
def matchLe (a b : GrepMatch) : Prop :=
  a.filePath < b.filePath ∨ (a.filePath = b.filePath ∧ a.lineNumber ≤ b.lineNumber)

/-- Strict key order on matches: file path, then line number. -/
def matchKeyLt (a b : GrepMatch) : Prop :=
  a.filePath < b.filePath ∨ (a.filePath = b.filePath ∧ a.lineNumber < b.lineNumber)

instance : DecidableRel matchLe := fun a b =>
  inferInstanceAs (Decidable
    (a.filePath < b.filePath ∨ (a.filePath = b.filePath ∧ a.lineNumber ≤ b.lineNumber)))

instance : DecidableRel matchKeyLt := fun a b =>
  inferInstanceAs (Decidable
    (a.filePath < b.filePath ∨ (a.filePath = b.filePath ∧ a.lineNumber < b.lineNumber)))

/-- Model of `[...matches].sort(cmp)` in `formatCompactMatchesOutput`
(a stable sort by the comparator). -/
def sortMatches (ms : List GrepMatch) : List GrepMatch :=
  List.insertionSort matchLe ms

/-- Decimal rendering of a number, as a character list. -/
def natToStr (n : Nat) : Str := (Nat.repr n).data

/-- UTF-8 byte length (`Buffer.byteLength(s, "utf8")`). -/
def byteLen (s : Str) : Nat := (s.map Char.utf8Size).sum

/-- Serialization of one match line in the compact output. -/
def serializeMatch (m : GrepMatch) : Str :=
  m.filePath ++ ':' :: natToStr m.lineNumber ++ ':' :: jsTrim m.line

/-- Rendering loop of `formatCompactMatchesOutput`: starting from the
byte count already used, append serialized match lines until the first
one whose inclusion would exceed the byte budget; report whether that
happened. -/
def renderLoopGo (maxOutputBytes : Nat) : Nat → List GrepMatch → List Str × Bool
  | _, [] => ([], false)
  | bytes, m :: rest =>
    let line := serializeMatch m
    let lineBytes := byteLen (line ++ ['\n'])
    if bytes + lineBytes > maxOutputBytes then ([], true)
    else
      let r := renderLoopGo maxOutputBytes (bytes + lineBytes) rest
      (line :: r.1, r.2)

/-- The `matches=<n>` header line. -/
def headerLine (n : Nat) : Str := "matches=".data ++ natToStr n

/-- Cumulative byte count of the header plus the first `k` serialized
match lines (each with its newline). -/
def renderedBytes (sorted : List GrepMatch) (k : Nat) : Nat :=
  byteLen (headerLine sorted.length ++ ['\n']) +
    ((sorted.take k).map (fun m => byteLen (serializeMatch m ++ ['\n']))).sum

/-- Model of `formatCompactMatchesOutput` from the search tool, as the
list of output lines before joining: header, sorted serialized matches
under the byte budget, then the two independent truncation trailers. -/
def formatCompactLines (ms : List GrepMatch) (maxMatches : Nat)
    (matchTruncated : Bool) (maxOutputBytes : Nat) : List Str :=
  let sorted := sortMatches ms
  let header := headerLine sorted.length
  let rendered := renderLoopGo maxOutputBytes (byteLen (header ++ ['\n'])) sorted
  header :: rendered.1 ++
    (if matchTruncated then ["truncated=max_matches:".data ++ natToStr maxMatches]
     else []) ++
    (if rendered.2 then
      ["truncated=max_output_bytes:".data ++ natToStr maxOutputBytes]
     else [])

/-- Join output lines with newlines. -/
def joinLines : List Str → Str
  | [] => []
  | [l] => l
  | l :: rest => l ++ '\n' :: joinLines rest

/-- Model of `formatCompactMatchesOutput` (the final string). -/
def formatCompactMatchesOutput (ms : List GrepMatch) (maxMatches : Nat)
    (matchTruncated : Bool) (maxOutputBytes : Nat) : Str :=
  joinLines (formatCompactLines ms maxMatches matchTruncated maxOutputBytes)

/-- Final responses of `searchFileContentTool` once a match list is at
hand: the generic no-matches message, or the compact match output. -/
inductive SearchOutcome where
  | noMatches (msg : Str)
  | output (text : Str)
deriving DecidableEq

/-- The `No matches for pattern ... in ...` message of
`searchFileContentTool`, with the optional include-filter note. -/
def noMatchMessage (pattern pathParam : Str) (includeGlob : Option Str) : Str :=
  let base := "No matches for pattern \"".data ++ pattern ++ "\" in \"".data ++
    pathParam ++ "\".".data
  match includeGlob with
  | some g => base ++ " filter=".data ++ g
  | none => base

/-- Model of `searchFileContentTool`'s response construction from the
final (mapped and policy-filtered) match list. -/
def searchResponse (pattern pathParam : Str) (includeGlob : Option Str)
    (ms : List GrepMatch) (wasTruncated : Bool)
    (maxMatches maxOutputBytes : Nat) : SearchOutcome :=
  if ms.isEmpty then
    .noMatches (noMatchMessage pattern pathParam includeGlob)
  else
    .output (formatCompactMatchesOutput ms maxMatches wasTruncated maxOutputBytes)


/-- A path segment that normalization can emit: nonempty, not a dot
segment, and containing no separator. -/
def cleanSeg (seg : Str) : Prop :=
  seg ≠ [] ∧ seg ≠ ['.'] ∧ seg ≠ ['.', '.'] ∧ '/' ∉ seg

/-- Total serialized byte size (newlines included) of a list of match
lines in the compact renderer. -/
def lineBytesSum (ms : List GrepMatch) : Nat :=
  (ms.map (fun m => byteLen (serializeMatch m ++ ['\n']))).sum

/-- The explicit aborted marker on a `ripgrepTool` outcome (models the
`aborted: true` field of the structured content). -/
def outcomeAborted : RipgrepOutcome → Bool
  | .abortedOutcome => true
  | _ => false

theorem splitOnSlash_ne_nil (s : Str) : splitOnSlash s ≠ [] := by
  cases s with
  | nil => simp [splitOnSlash]
  | cons c cs =>
    by_cases h : c = '/' <;> simp [splitOnSlash, h]

theorem splitOnSlash_no_slash (s : Str) : ∀ t ∈ splitOnSlash s, '/' ∉ t := by
  induction s with
  | nil =>
    intro t ht
    simp [splitOnSlash] at ht
    simp [ht]
  | cons c cs ih =>
    intro t ht
    by_cases h : c = '/'
    · rw [splitOnSlash, if_pos h] at ht
      rcases List.mem_cons.mp ht with h1 | h1
      · simp [h1]
      · exact ih t h1
    · rw [splitOnSlash, if_neg h] at ht
      rcases List.mem_cons.mp ht with h1 | h1
      · subst h1
        intro hm
        rcases List.mem_cons.mp hm with h2 | h2
        · exact h h2.symm
        · cases hs : splitOnSlash cs with
          | nil => exact absurd hs (splitOnSlash_ne_nil cs)
          | cons a rest =>
            rw [hs] at h2
            exact ih a (by rw [hs]; exact List.mem_cons_self a rest) h2
      · cases hs : splitOnSlash cs with
        | nil => exact absurd hs (splitOnSlash_ne_nil cs)
        | cons a rest =>
          rw [hs] at h1
          exact ih t (by rw [hs]; exact List.mem_cons_of_mem a h1)

theorem splitOnSlash_of_no_slash (s : Str) (h : '/' ∉ s) : splitOnSlash s = [s] := by
  induction s with
  | nil => rfl
  | cons c cs ih =>
    have hc : c ≠ '/' := fun hc => h (by simp [hc])
    have hcs : '/' ∉ cs := fun hm => h (List.mem_cons_of_mem c hm)
    rw [splitOnSlash, if_neg (fun hh => hc hh), ih hcs]
    rfl

theorem splitOnSlash_append (a b : Str) (h : '/' ∉ a) :
    splitOnSlash (a ++ b) =
      (a ++ (splitOnSlash b).headD []) :: (splitOnSlash b).tail := by
  induction a with
  | nil =>
    simp only [List.nil_append]
    cases hs : splitOnSlash b with
    | nil => exact absurd hs (splitOnSlash_ne_nil b)
    | cons x t => rfl
  | cons c cs ih =>
    have hc : c ≠ '/' := fun hc => h (by simp [hc])
    have hcs : '/' ∉ cs := fun hm => h (List.mem_cons_of_mem c hm)
    rw [List.cons_append, splitOnSlash, if_neg (fun hh => hc hh), ih hcs]
    rfl

theorem segments_joinSegs (segs : List Str)
    (h : ∀ s ∈ segs, s ≠ [] ∧ '/' ∉ s) : segments (joinSegs segs) = segs := by
  induction segs with
  | nil => rfl
  | cons s rest ih =>
    rcases h s (List.mem_cons_self s rest) with ⟨hne, hns⟩
    cases rest with
    | nil =>
      rw [joinSegs, segments, splitOnSlash_of_no_slash s hns]
      simp [hne]
    | cons s₂ rest₂ =>
      have hrest : ∀ x ∈ s₂ :: rest₂, x ≠ [] ∧ '/' ∉ x := fun x hx =>
        h x (List.mem_cons_of_mem s hx)
      rw [joinSegs, segments, splitOnSlash_append s ('/' :: joinSegs (s₂ :: rest₂)) hns]
      rw [splitOnSlash, if_pos rfl]
      simp only [List.headD_cons, List.tail_cons, List.append_nil]
      have ihr := ih hrest
      rw [segments] at ihr
      rw [List.filter_cons_of_pos (by simp [hne]), ihr]
      simp

theorem foldl_normStep_of_clean (segs : List Str) (acc : List Str)
    (h : ∀ s ∈ segs, cleanSeg s) :
    segs.foldl normStep acc = segs.reverse ++ acc := by
  induction segs generalizing acc with
  | nil => rfl
  | cons s rest ih =>
    rcases h s (List.mem_cons_self s rest) with ⟨_, hdot, hddot, _⟩
    have hstep : normStep acc s = s :: acc := by
      rw [normStep, if_neg hdot, if_neg hddot]
    rw [List.foldl_cons, hstep,
      ih (s :: acc) (fun x hx => h x (List.mem_cons_of_mem s hx))]
    simp

theorem mem_foldl_normStep (segs : List Str) (acc : List Str)
    (hs : ∀ s ∈ segs, s ≠ [] ∧ '/' ∉ s) (ha : ∀ s ∈ acc, cleanSeg s) :
    ∀ s ∈ segs.foldl normStep acc, cleanSeg s := by
  induction segs generalizing acc with
  | nil => exact ha
  | cons x rest ih =>
    rw [List.foldl_cons]
    apply ih (normStep acc x) (fun y hy => hs y (List.mem_cons_of_mem x hy))
    intro y hy
    rw [normStep] at hy
    by_cases h1 : x = ['.']
    · rw [if_pos h1] at hy; exact ha y hy
    · rw [if_neg h1] at hy
      by_cases h2 : x = ['.', '.']
      · rw [if_pos h2] at hy
        exact ha y (List.mem_of_mem_tail hy)
      · rw [if_neg h2] at hy
        rcases List.mem_cons.mp hy with h3 | h3
        · subst h3
          rcases hs y (List.mem_cons_self y rest) with ⟨hne, hns⟩
          exact ⟨hne, h1, h2, hns⟩
        · exact ha y h3

theorem normSegsOf_clean (s : Str) : ∀ t ∈ normSegsOf s, cleanSeg t := by
  intro t ht
  rw [normSegsOf, List.mem_reverse] at ht
  refine mem_foldl_normStep (segments s) [] ?_ (by simp) t ht
  intro x hx
  rw [segments, List.mem_filter] at hx
  exact ⟨by simpa using hx.2, splitOnSlash_no_slash s x hx.1⟩

theorem normSegsOf_mkAbs (segs : List Str) (h : ∀ s ∈ segs, cleanSeg s) :
    normSegsOf (mkAbs segs) = segs := by
  have hseg : segments (mkAbs segs) = segs := by
    rw [mkAbs, segments, splitOnSlash, if_pos rfl]
    have : segments (joinSegs segs) = segs :=
      segments_joinSegs segs (fun s hs => ⟨(h s hs).1, (h s hs).2.2.2⟩)
    rw [segments] at this
    simpa using this
  rw [normSegsOf, hseg, foldl_normStep_of_clean segs [] h]
  simp

theorem normalizeAbs_idem (s : Str) :
    normalizeAbs (normalizeAbs s) = normalizeAbs s := by
  rw [normalizeAbs, normalizeAbs, normSegsOf_mkAbs (normSegsOf s) (normSegsOf_clean s)]

/-- C1: for every caller-supplied path (absolute or root-relative) and
every root set, `resolveWithinWorkspace` either throws, or returns an
absolute path that is equal to, or a lexical descendant of (prefixed by
`root + '/'`), some registered workspace root; it never returns a path
outside every root. -/
theorem resolveWithinWorkspace_containment (fs : FS) (roots : List Str) (p : Str)
    (res : Resolved) (h : resolveWithinWorkspace fs roots p = .ok res) :
    res.root ∈ roots ∧
      ((withTrailingSlash (normalizeAbs res.root)).isPrefixOf res.absPath = true ∨
        res.absPath = normalizeAbs res.root) := by
  rw [resolveWithinWorkspace] at h
  cases hf : roots.find? (fun root => isWithinRoot fs (resolveCandidate roots p) root) with
  | none => rw [hf] at h; cases h
  | some root =>
    rw [hf] at h
    cases h
    have hmem : root ∈ roots := List.mem_of_find?_eq_some hf
    have hpred := List.find?_some hf
    simp only [decide_eq_true_eq] at hpred
    rw [isWithinRoot, Bool.and_eq_true] at hpred
    have hlit := hpred.1
    rw [literalWithin] at hlit
    simp only [Bool.or_eq_true, beq_iff_eq] at hlit
    refine ⟨hmem, ?_⟩
    rw [show (Resolved.mk (resolveCandidate roots p) root).absPath =
      resolveCandidate roots p from rfl]
    rw [show (Resolved.mk (resolveCandidate roots p) root).root = root from rfl]
    rw [resolveCandidate] at hlit ⊢
    rw [normalizeAbs_idem] at hlit
    exact hlit

/-- Containment witness: resolving the relative path `b/../a` in the
root set `["/ws"]` lands inside the registered root `/ws`. -/
theorem resolveWithinWorkspace_containment_witness :
    ("/ws".data ∈ ["/ws".data]) ∧
      ((withTrailingSlash (normalizeAbs "/ws".data)).isPrefixOf "/ws/a".data = true ∨
        "/ws/a".data = normalizeAbs "/ws".data) :=
  resolveWithinWorkspace_containment ⟨fun _ => true, fun _ => none⟩ ["/ws".data]
    "b/../a".data ⟨"/ws/a".data, "/ws".data⟩ rfl

/-- C2: when the canonical (symlink-resolved) form of the nearest
existing ancestor of the candidate path is not contained in any root's
canonical form — a symlink inside a root pointing outside all roots —
resolution rejects the path with the outside-workspace error, even if
the literal path is lexically inside a root. -/
theorem resolveWithinWorkspace_symlink_escape (fs : FS) (roots : List Str) (p : Str)
    (h : ∀ root ∈ roots, canonicalWithin fs (resolveCandidate roots p) root = false) :
    resolveWithinWorkspace fs roots p = .error p := by
  rw [resolveWithinWorkspace]
  have hnone : roots.find? (fun root => isWithinRoot fs (resolveCandidate roots p) root)
      = none := by
    rw [List.find?_eq_none]
    intro root hmem
    simp [isWithinRoot, h root hmem]
  rw [hnone]

/-- Symlink-escape witness: `/ws/link` is a symlink to `/outside`, so
`/ws/link/secret` is rejected although it is lexically inside `/ws`. -/
theorem resolveWithinWorkspace_symlink_escape_witness :
    resolveWithinWorkspace
      ⟨fun s => s == "/ws".data || s == "/ws/link".data || s == "/".data,
        fun s => if s == "/ws/link".data then some "/outside".data
          else if s == "/ws".data then some "/ws".data else none⟩
      ["/ws".data] "/ws/link/secret".data = .error "/ws/link/secret".data :=
  resolveWithinWorkspace_symlink_escape _ _ _ (by decide)

/-- C10: `isSensitivePath p` holds exactly when `p` equals or lies
under `.git`, `.hg` or `.svn`, or its final path segment is exactly
`.env`; in particular `.` is never sensitive and `.env.local` /
`.envrc` are not sensitive. -/
theorem isSensitivePath_characterization :
    (∀ p : Str, isSensitivePath p = true ↔
      (p = ".git".data ∨ ".git/".data <+: p ∨ p = ".hg".data ∨ ".hg/".data <+: p ∨
        p = ".svn".data ∨ ".svn/".data <+: p ∨ posixBasename p = ".env".data)) ∧
    isSensitivePath ".".data = false ∧
    isSensitivePath ".env.local".data = false ∧
    isSensitivePath ".envrc".data = false := by
  refine ⟨?_, by decide, by decide, by decide⟩
  intro p
  rw [isSensitivePath]
  by_cases hdot : p = ['.']
  · subst hdot
    simp only [if_pos rfl]
    constructor
    · intro h; cases h
    · intro h; exact absurd h (by decide)
  · rw [if_neg hdot]
    by_cases hbig : (p == ".git".data || (".git/".data).isPrefixOf p
        || p == ".hg".data || (".hg/".data).isPrefixOf p
        || p == ".svn".data || (".svn/".data).isPrefixOf p) = true
    · rw [if_pos hbig]
      simp only [Bool.or_eq_true, beq_iff_eq, List.isPrefixOf_iff_prefix] at hbig
      simp only [true_iff]
      tauto
    · rw [if_neg hbig]
      simp only [Bool.or_eq_true, beq_iff_eq, List.isPrefixOf_iff_prefix, not_or,
        Bool.not_eq_true] at hbig
      obtain ⟨⟨⟨⟨⟨h1, h2⟩, h3⟩, h4⟩, h5⟩, h6⟩ := hbig
      simp only [beq_iff_eq]
      constructor
      · intro h; tauto
      · intro h
        rcases h with h | h | h | h | h | h | h
        · exact absurd h h1
        · exact absurd h h2
        · exact absurd h h3
        · exact absurd h h4
        · exact absurd h h5
        · exact absurd h h6
        · exact h

/-- Sensitivity-characterization witness at `a/.env`. -/
theorem isSensitivePath_characterization_witness :
    isSensitivePath "a/.env".data = true ↔
      ("a/.env".data = ".git".data ∨ ".git/".data <+: "a/.env".data ∨
        "a/.env".data = ".hg".data ∨ ".hg/".data <+: "a/.env".data ∨
        "a/.env".data = ".svn".data ∨ ".svn/".data <+: "a/.env".data ∨
        posixBasename "a/.env".data = ".env".data) :=
  isSensitivePath_characterization.1 "a/.env".data

/-- C3: sensitivity is absolute. For every sensitive root-relative
path, `getPathPolicyBlockReason` answers `sensitive` for every policy
context — in particular for the context produced by any combination of
the `no_ignore` / `respect_git_ignore` / nested-options flags — and
`ripgrepTool`'s `handleJsonLine` drops any match event whose
root-relative path is sensitive without counting or recording it. -/
theorem sensitivePath_never_allowed :
    (∀ (p : Str) (policy : PathPolicyContext), isSensitivePath p = true →
      getPathPolicyBlockReason p policy = some .sensitive) ∧
    (∀ (options : Option CommonFileFilteringOptions) (outside : Option Bool)
        (filt : Option (Str → Bool)) (p : Str), isSensitivePath p = true →
      getPathPolicyBlockReason p
        ⟨resolveRespectGitIgnore options outside, filt⟩ = some .sensitive) ∧
    (∀ (root baseDir : Str) (maxMatches : Nat) (mode : OutputMode) (st : RgState)
        (etype pathText : Str) (ln : Nat) (linesText : Str),
      isSensitivePath (toPosixPath (pathRelative root (pathResolve baseDir pathText)))
          = true →
      handleJsonLine root baseDir maxMatches mode st
        (.event etype pathText ln linesText) = st) := by
  have main : ∀ (p : Str) (policy : PathPolicyContext), isSensitivePath p = true →
      getPathPolicyBlockReason p policy = some .sensitive := by
    intro p policy hp
    have hdot : p ≠ ['.'] := by
      intro h; rw [h] at hp; exact absurd hp (by decide)
    have hnil : p ≠ [] := by
      intro h; rw [h] at hp; exact absurd hp (by decide)
    rw [getPathPolicyBlockReason, if_neg (by simp [hdot, hnil]), if_pos hp]
  refine ⟨main, fun options outside filt p hp => main p _ hp, ?_⟩
  intro root baseDir maxMatches mode st etype pathText ln linesText hsen
  rw [handleJsonLine]
  by_cases h1 : st.truncated = true ∨ st.matchCount ≥ maxMatches
  · rw [if_pos h1]
  · rw [if_neg h1]
    by_cases h2 : etype ≠ "match".data
    · rw [if_pos h2]
    · rw [if_neg h2]
      simp only [hsen, if_true]

/-- Sensitivity-absoluteness witness: `.git/config` is blocked as
sensitive even with ignore-respect forced off, and a ripgrep match event
reported inside `.env` leaves the accumulator untouched. -/
theorem sensitivePath_never_allowed_witness :
    getPathPolicyBlockReason ".git/config".data
      ⟨resolveRespectGitIgnore (some ⟨some true, none, none⟩) none, none⟩
        = some .sensitive ∧
    handleJsonLine "/ws".data "/ws".data 100 .full ⟨[], [], 0, false, false⟩
      (.event "match".data ".env".data 3 "SECRET=1".data) = ⟨[], [], 0, false, false⟩ :=
  ⟨sensitivePath_never_allowed.2.1 (some ⟨some true, none, none⟩) none none
      ".git/config".data (by decide),
    sensitivePath_never_allowed.2.2 "/ws".data "/ws".data 100 .full
      ⟨[], [], 0, false, false⟩ "match".data ".env".data 3 "SECRET=1".data (by decide)⟩

theorem jsTrimStart_cons_of_not_ws (c : Char) (p : Str) (h : isWSChar c = false) :
    jsTrimStart (c :: p) = c :: p := by
  simp [jsTrimStart, List.dropWhile_cons, h]

theorem jsTrim_cons_ne_nil (c : Char) (p : Str) (h : isWSChar c = false) :
    jsTrim (c :: p) ≠ [] := by
  rw [jsTrim, jsTrimStart_cons_of_not_ws c p h, jsTrimEnd]
  intro heq
  rw [List.reverse_eq_nil_iff, List.dropWhile_eq_nil_iff] at heq
  have := heq c (by rw [List.mem_reverse]; exact List.mem_cons_self c p)
  rw [h] at this
  cases this

theorem mem_of_getLast?_eq_some (l : Str) (a : Char) (h : l.getLast? = some a) :
    a ∈ l := by
  rcases List.mem_getLast?_eq_getLast (l := l) (x := a) (by rw [h]; rfl) with ⟨hne, heq⟩
  rw [heq]
  exact List.getLast_mem hne

/-- C4: the nested-ignore-file rewriter. Blank and comment lines are
dropped; patterns from the root-level file (empty directory prefix) are
passed through unmodified; for a nested file at `dir`, an anchored
pattern `/p` becomes `dir/p`, a bare name (no `'/'`) becomes
`dir/**/name`, a pattern with an internal `'/'` becomes `dir/pattern`,
and a leading `'!'` is stripped before the transformation and re-applied
afterwards. -/
theorem prefixGitIgnorePattern_rewrite :
    (∀ (dir L : Str), jsTrim L = [] → prefixGitIgnorePattern dir L = none) ∧
    (∀ (dir L : Str), (jsTrimStart L).head? = some '#' →
      prefixGitIgnorePattern dir L = none) ∧
    (∀ L : Str, jsTrim L ≠ [] → (jsTrimStart L).head? ≠ some '#' →
      prefixGitIgnorePattern [] L = some L) ∧
    (∀ (dir p : Str), dir ≠ [] →
      prefixGitIgnorePattern dir ('/' :: p) = some (dir ++ '/' :: p)) ∧
    (∀ (dir L : Str), dir ≠ [] → '/' ∉ L → L.head? ≠ some '!' →
      jsTrim L ≠ [] → (jsTrimStart L).head? ≠ some '#' →
      prefixGitIgnorePattern dir L = some (dir ++ "/**/".data ++ L)) ∧
    (∀ (dir L : Str), dir ≠ [] → L.head? ≠ some '/' → L.head? ≠ some '!' →
      '/' ∈ (if L.getLast? = some '/' then L.dropLast else L) →
      jsTrim L ≠ [] → (jsTrimStart L).head? ≠ some '#' →
      prefixGitIgnorePattern dir L = some (dir ++ '/' :: L)) ∧
    (∀ (dir M : Str), M.head? ≠ some '!' → jsTrim M ≠ [] →
      (jsTrimStart M).head? ≠ some '#' →
      prefixGitIgnorePattern dir ('!' :: M) =
        (prefixGitIgnorePattern dir M).map (fun s => '!' :: s)) := by
  refine ⟨?_, ?_, ?_, ?_, ?_, ?_, ?_⟩
  · intro dir L h
    rw [prefixGitIgnorePattern, if_pos h]
  · intro dir L h
    by_cases hb : jsTrim L = []
    · rw [prefixGitIgnorePattern, if_pos hb]
    · rw [prefixGitIgnorePattern, if_neg hb, if_pos h]
  · intro L h1 h2
    rw [prefixGitIgnorePattern, if_neg h1, if_neg h2]
    simp
  · intro dir p hdir
    rw [prefixGitIgnorePattern,
      if_neg (jsTrim_cons_ne_nil '/' p (by decide)),
      if_neg (by rw [jsTrimStart_cons_of_not_ws '/' p (by decide)]; simp)]
    simp [hdir]
  · intro dir L hdir hns hne h1 h2
    have hhead : L.head? ≠ some '/' := by
      cases L with
      | nil => simp
      | cons c cs =>
        simp only [List.head?_cons, ne_eq, Option.some.injEq]
        intro hc
        exact hns (by simp [hc])
    have hlast : L.getLast? ≠ some '/' := fun hl =>
      hns (mem_of_getLast?_eq_some L '/' hl)
    have hcont : L.contains '/' = false := by simpa using hns
    rw [prefixGitIgnorePattern, if_neg h1, if_neg h2]
    simp only [hdir, hne, hhead, hlast, hcont]
    simp [hdir, hne, hhead, hlast, hcont]
    intro h
    exact absurd h hns
  · intro dir L hdir hna hne hs h1 h2
    have hcont : (if L.getLast? = some '/' then L.dropLast else L).contains '/' = true := by
      simpa using hs
    rw [prefixGitIgnorePattern, if_neg h1, if_neg h2]
    simp [hdir, hne, hna, hcont]
    intro h
    exact absurd hs h
  · intro dir M hne h1 h2
    have hbang : jsTrim ('!' :: M) ≠ [] := jsTrim_cons_ne_nil '!' M (by decide)
    have hcomm : (jsTrimStart ('!' :: M)).head? ≠ some '#' := by
      rw [jsTrimStart_cons_of_not_ws '!' M (by decide)]
      simp
    rw [prefixGitIgnorePattern, if_neg hbang, if_neg hcomm,
      prefixGitIgnorePattern, if_neg h1, if_neg h2]
    by_cases hdir : dir = []
    · simp [hdir]
    · simp [hdir, hne]

/-- Rewriter witness: anchored, bare-name, internal-slash, negated,
root-level and blank sample lines. -/
theorem prefixGitIgnorePattern_rewrite_witness :
    prefixGitIgnorePattern "sub".data "/x/y".data = some "sub/x/y".data ∧
    prefixGitIgnorePattern "sub".data "build".data = some "sub/**/build".data ∧
    prefixGitIgnorePattern "sub".data "a/b".data = some "sub/a/b".data ∧
    prefixGitIgnorePattern "sub".data "!name".data =
      (prefixGitIgnorePattern "sub".data "name".data).map (fun s => '!' :: s) ∧
    prefixGitIgnorePattern [] "dist/".data = some "dist/".data ∧
    prefixGitIgnorePattern "sub".data "   ".data = none :=
  ⟨prefixGitIgnorePattern_rewrite.2.2.2.1 "sub".data "x/y".data (by decide),
    prefixGitIgnorePattern_rewrite.2.2.2.2.1 "sub".data "build".data (by decide)
      (by decide) (by decide) (by decide) (by decide),
    prefixGitIgnorePattern_rewrite.2.2.2.2.2.1 "sub".data "a/b".data (by decide)
      (by decide) (by decide) (by decide) (by decide) (by decide),
    prefixGitIgnorePattern_rewrite.2.2.2.2.2.2 "sub".data "name".data (by decide)
      (by decide) (by decide),
    prefixGitIgnorePattern_rewrite.2.2.1 "dist/".data (by decide) (by decide),
    prefixGitIgnorePattern_rewrite.1 "sub".data "   ".data (by decide)⟩

theorem handleLine_not_countable (mm : Nat) (st : PState) (l : RgJsonLine)
    (h : countableLine l = false) : handleLine mm st l = st := by
  cases l with
  | blank => rfl
  | unparsed => rfl
  | event etype pathText ln linesText =>
    rw [handleLine]
    by_cases h1 : st.truncated = true ∨ st.matchList.length ≥ mm
    · rw [if_pos h1]
    · rw [if_neg h1]
      by_cases h2 : etype ≠ "match".data
      · rw [if_pos h2]
      · rw [if_neg h2]
        rw [countableLine] at h
        rw [not_not] at h2
        simp only [h2, beq_self_eq_true, Bool.true_and, Bool.and_eq_false_iff] at h
        have hfalse : (truthyText pathText && truthyText linesText) = false := by
          rcases h with h | h <;> simp [h]
        rw [hfalse]
        simp

theorem handleLine_countable_step (mm : Nat) (st : PState) (etype : Str)
    (pathText : Option Str) (ln : Nat) (linesText : Option Str)
    (hc : countableLine (.event etype pathText ln linesText) = true)
    (hnt : st.truncated = false) (hlen : st.matchList.length < mm) :
    handleLine mm st (.event etype pathText ln linesText) =
      ⟨st.matchList ++ [⟨pathText.getD [], ln, jsTrimEnd (linesText.getD [])⟩],
        if st.matchList.length + 1 ≥ mm then true else false⟩ := by
  rw [countableLine] at hc
  simp only [Bool.and_eq_true, beq_iff_eq] at hc
  obtain ⟨⟨hety, hpt⟩, hlt⟩ := hc
  rw [handleLine]
  rw [if_neg (by rw [hnt]; simp; omega)]
  rw [if_neg (by simp [hety])]
  rw [hpt, hlt]
  simp [hnt, List.length_append]

theorem foldl_handleLine_cap (mm : Nat) :
    ∀ (ls : List RgJsonLine) (st : PState) (m : Nat),
      st.matchList.length = min m mm → st.truncated = decide (mm ≤ m) →
      ((ls.foldl (handleLine mm) st).matchList.length =
          min (m + ls.countP countableLine) mm ∧
        (ls.foldl (handleLine mm) st).truncated =
          decide (mm ≤ m + ls.countP countableLine)) := by
  intro ls
  induction ls with
  | nil =>
    intro st m h1 h2
    simp [h1, h2]
  | cons l rest ih =>
    intro st m h1 h2
    rw [List.foldl_cons]
    by_cases hc : countableLine l = true
    · have hcount : (l :: rest).countP countableLine = rest.countP countableLine + 1 := by
        rw [List.countP_cons, if_pos hc]
      have harith : m + (rest.countP countableLine + 1) =
          m + 1 + rest.countP countableLine := by omega
      rw [hcount, harith]
      by_cases hsat : mm ≤ m
      · have htr : st.truncated = true := by rw [h2]; simp [hsat]
        have hguard : handleLine mm st l = st := by
          cases l with
          | blank => rfl
          | unparsed => rfl
          | event etype pathText ln linesText =>
            rw [handleLine, if_pos (Or.inl htr)]
        rw [hguard]
        exact ih st (m + 1) (by rw [h1]; omega) (by rw [h2]; simp; omega)
      · have hm : m < mm := Nat.lt_of_not_le hsat
        have htr : st.truncated = false := by rw [h2]; simp [hsat]
        have hlen : st.matchList.length = m := by rw [h1]; omega
        cases l with
        | blank => exact absurd hc (by simp [countableLine])
        | unparsed => exact absurd hc (by simp [countableLine])
        | event etype pathText ln linesText =>
          rw [handleLine_countable_step mm st etype pathText ln linesText hc htr
            (by omega)]
          exact ih
            ⟨st.matchList ++ [⟨pathText.getD [], ln, jsTrimEnd (linesText.getD [])⟩],
              if st.matchList.length + 1 ≥ mm then true else false⟩
            (m + 1)
            (by simp [List.length_append, hlen]; omega)
            (by simp [hlen])
    · have hcount : (l :: rest).countP countableLine = rest.countP countableLine := by
        rw [List.countP_cons, if_neg hc]
        omega
      rw [handleLine_not_countable mm st l (by simpa using hc), hcount]
      exact ih st m h1 h2

/-- C5 (amended): with cap `maxMatches = N` over a stream whose countable
match events number `M`: if `M ≥ N` the collector keeps exactly `N`
matches and the count-truncation flag is `true` (note: this includes the
boundary `M = N`); if `M < N` all `M` matches are kept and the flag is
`false`. -/
theorem parseRun_match_cap (mm : Nat) (hmm : 1 ≤ mm) (ls : List RgJsonLine) :
    ((mm ≤ ls.countP countableLine →
        (parseRun mm ls).matchList.length = mm ∧ (parseRun mm ls).truncated = true) ∧
      (ls.countP countableLine < mm →
        (parseRun mm ls).matchList.length = ls.countP countableLine ∧
          (parseRun mm ls).truncated = false)) := by
  have h := foldl_handleLine_cap mm ls ⟨[], false⟩ 0 (by simp) (by simp; omega)
  rw [parseRun]
  constructor
  · intro hM
    refine ⟨?_, ?_⟩
    · rw [h.1]; omega
    · rw [h.2]; simp; omega
  · intro hM
    refine ⟨?_, ?_⟩
    · rw [h.1]; omega
    · rw [h.2]; simp; omega

/-- C5 counterexample: with `maxMatches = 1` and a corpus containing
exactly `M = 1` matching line (so `M ≤ N`), all matches are returned but
the count-truncation flag is `true`, contradicting the claim that the
flag is false whenever `M ≤ N`. -/
theorem parseRun_cap_boundary_cex :
    ([RgJsonLine.event "match".data (some "a.txt".data) 1 (some "x".data)].countP
        countableLine = 1) ∧
    (parseRun 1 [RgJsonLine.event "match".data (some "a.txt".data) 1
        (some "x".data)]).matchList.length = 1 ∧
    (parseRun 1 [RgJsonLine.event "match".data (some "a.txt".data) 1
        (some "x".data)]).truncated = true := by
  decide

/-- Match-cap witness: a two-event stream under cap 3 keeps both matches
with the flag off. -/
theorem parseRun_match_cap_witness :
    (parseRun 3 [RgJsonLine.event "match".data (some "a.txt".data) 1 (some "x".data),
        RgJsonLine.event "match".data (some "b.txt".data) 2 (some "y".data)]).matchList.length =
      [RgJsonLine.event "match".data (some "a.txt".data) 1 (some "x".data),
        RgJsonLine.event "match".data (some "b.txt".data) 2 (some "y".data)].countP
        countableLine ∧
    (parseRun 3 [RgJsonLine.event "match".data (some "a.txt".data) 1 (some "x".data),
        RgJsonLine.event "match".data (some "b.txt".data) 2 (some "y".data)]).truncated =
      false :=
  (parseRun_match_cap 3 (by decide)
    [RgJsonLine.event "match".data (some "a.txt".data) 1 (some "x".data),
      RgJsonLine.event "match".data (some "b.txt".data) 2 (some "y".data)]).2 (by decide)

theorem matchLe_total : ∀ a b : GrepMatch, matchLe a b ∨ matchLe b a := by
  intro a b
  rcases lt_trichotomy a.filePath b.filePath with h | h | h
  · exact Or.inl (Or.inl h)
  · rcases Nat.le_total a.lineNumber b.lineNumber with hl | hl
    · exact Or.inl (Or.inr ⟨h, hl⟩)
    · exact Or.inr (Or.inr ⟨h.symm, hl⟩)
  · exact Or.inr (Or.inl h)

theorem matchLe_trans : ∀ a b c : GrepMatch, matchLe a b → matchLe b c → matchLe a c := by
  intro a b c hab hbc
  rcases hab with h1 | ⟨hf1, hl1⟩
  · rcases hbc with h2 | ⟨hf2, _⟩
    · exact Or.inl (h1.trans h2)
    · exact Or.inl (hf2 ▸ h1)
  · rcases hbc with h2 | ⟨hf2, hl2⟩
    · exact Or.inl (hf1 ▸ h2)
    · exact Or.inr ⟨hf1.trans hf2, hl1.trans hl2⟩

theorem matchKeyLt_asymm : ∀ a b : GrepMatch, matchKeyLt a b → ¬matchKeyLt b a := by
  intro a b hab hba
  rcases hab with h1 | ⟨hf1, hl1⟩
  · rcases hba with h2 | ⟨hf2, _⟩
    · exact absurd (h1.trans h2) (lt_irrefl _)
    · exact absurd (hf2 ▸ h1) (lt_irrefl _)
  · rcases hba with h2 | ⟨_, hl2⟩
    · exact absurd (hf1 ▸ h2) (lt_irrefl _)
    · exact absurd (hl1.trans hl2) (lt_irrefl _)

/-- C6 (amended): `searchFileContentTool`'s compact output sorts the
final matches by root-relative file path ascending, then line number
ascending, and any two production orders of the same match set (with
distinct (path, line) keys) render the identical sorted sequence.
(`ripgrepTool`'s full output, by contrast, orders files by first
emission — see the counterexample.) -/
theorem searchOutput_sorted_deterministic :
    (∀ ms : List GrepMatch, (sortMatches ms).Sorted matchLe) ∧
    (∀ ms : List GrepMatch, List.Perm (sortMatches ms) ms) ∧
    (∀ ms₁ ms₂ : List GrepMatch, List.Perm ms₁ ms₂ →
      ms₁.Pairwise (fun a b => ¬(a.filePath = b.filePath ∧ a.lineNumber = b.lineNumber)) →
      sortMatches ms₁ = sortMatches ms₂) := by
  haveI htot : IsTotal GrepMatch matchLe := ⟨matchLe_total⟩
  haveI htrans : IsTrans GrepMatch matchLe := ⟨matchLe_trans⟩
  haveI hanti : IsAntisymm GrepMatch matchKeyLt :=
    ⟨fun a b h1 h2 => absurd h1 (matchKeyLt_asymm b a h2)⟩
  have hsorted : ∀ ms : List GrepMatch, (sortMatches ms).Sorted matchLe :=
    fun ms => List.sorted_insertionSort matchLe ms
  have hperm : ∀ ms : List GrepMatch, List.Perm (sortMatches ms) ms :=
    fun ms => List.perm_insertionSort matchLe ms
  refine ⟨hsorted, hperm, ?_⟩
  intro ms₁ ms₂ hp hkeys
  have hsymm : ∀ {x y : GrepMatch},
      ¬(x.filePath = y.filePath ∧ x.lineNumber = y.lineNumber) →
      ¬(y.filePath = x.filePath ∧ y.lineNumber = x.lineNumber) :=
    fun h hc => h ⟨hc.1.symm, hc.2.symm⟩
  have hk₁ := ((hperm ms₁).pairwise_iff hsymm).mpr hkeys
  have hk₂ := ((hperm ms₂).pairwise_iff hsymm).mpr
    ((hp.pairwise_iff hsymm).mp hkeys)
  have hstrict : ∀ ms : List GrepMatch, (sortMatches ms).Sorted matchLe →
      (sortMatches ms).Pairwise
        (fun a b => ¬(a.filePath = b.filePath ∧ a.lineNumber = b.lineNumber)) →
      (sortMatches ms).Sorted matchKeyLt := by
    intro ms hs hk
    have hand := hs.and hk
    refine hand.imp ?_
    rintro a b ⟨hle, hne⟩
    rcases hle with h | ⟨hf, hl⟩
    · exact Or.inl h
    · exact Or.inr ⟨hf, lt_of_le_of_ne hl (fun he => hne ⟨hf, he⟩)⟩
  exact List.eq_of_perm_of_sorted
    ((hperm ms₁).trans (hp.trans (hperm ms₂).symm))
    (hstrict ms₁ (hsorted ms₁) hk₁) (hstrict ms₂ (hsorted ms₂) hk₂)

/-- C6 counterexample: `ripgrepTool`'s full output groups files in
first-emission order, not path-ascending order, so two production orders
of the same matches yield different outputs. -/
theorem ripgrepTool_emission_order_cex :
    ((ripgrepByFile [⟨"b.txt".data, "/ws/b.txt".data, 1, "x".data⟩,
        ⟨"a.txt".data, "/ws/a.txt".data, 1, "y".data⟩]).map Prod.fst =
      ["b.txt".data, "a.txt".data]) ∧
    ripgrepByFile [⟨"b.txt".data, "/ws/b.txt".data, 1, "x".data⟩,
        ⟨"a.txt".data, "/ws/a.txt".data, 1, "y".data⟩] ≠
      ripgrepByFile [⟨"a.txt".data, "/ws/a.txt".data, 1, "y".data⟩,
        ⟨"b.txt".data, "/ws/b.txt".data, 1, "x".data⟩] := by
  decide

/-- Determinism witness: two opposite production orders of the same two
matches sort to the same output sequence. -/
theorem searchOutput_sorted_deterministic_witness :
    sortMatches [⟨"b".data, 1, "x".data⟩, ⟨"a".data, 2, "y".data⟩] =
      sortMatches [⟨"a".data, 2, "y".data⟩, ⟨"b".data, 1, "x".data⟩] :=
  searchOutput_sorted_deterministic.2.2 _ _ (by decide) (by decide)

/-- C7 (amended): in `ripgrepTool`, an aborted run (cancellation fired)
returns the outcome carrying the explicit aborted marker and no match
list, and that outcome is distinguishable — by the aborted marker — from
a successful run that found no matches. (`searchFileContentTool`, by
contrast, folds an aborted run into the generic no-matches response —
see the counterexample.) -/
theorem ripgrepTool_aborted_outcome :
    (∀ (st : RgState) (stderr : Str), ripgrepFinal true st stderr = .abortedOutcome) ∧
    (∀ (st : RgState) (stderr : Str), outcomeAborted (ripgrepFinal true st stderr) = true) ∧
    (∀ (st : RgState) (stderr : Str), st.matchCount = 0 →
      ripgrepFinal false st stderr = .noMatches stderr ∧
        outcomeAborted (ripgrepFinal false st stderr) = false) := by
  refine ⟨fun st stderr => rfl, fun st stderr => rfl, ?_⟩
  intro st stderr h
  rw [ripgrepFinal]
  simp [h, outcomeAborted]

/-- C7 counterexample: `searchFileContentTool` reports an aborted run
(whose parse result discards the collected matches) with exactly the
same no-matches response as a successful search that found nothing, so
the two outcomes are not distinguishable. -/
theorem searchTool_abort_indistinct_cex :
    searchResponse "x".data ".".data none
        (parseFinal true ⟨[⟨"a.txt".data, 1, "x".data⟩], false⟩).matchList
        false 20000 262144 =
      searchResponse "x".data ".".data none
        (parseFinal false ⟨[], false⟩).matchList false 20000 262144 := by
  rfl

/-- Aborted-outcome witness: a concrete aborted state maps to the
aborted outcome while the same state un-aborted maps to no-matches. -/
theorem ripgrepTool_aborted_outcome_witness :
    ripgrepFinal false ⟨[], [], 0, false, false⟩ "".data = .noMatches "".data ∧
      outcomeAborted (ripgrepFinal false ⟨[], [], 0, false, false⟩ "".data) = false :=
  ripgrepTool_aborted_outcome.2.2 ⟨[], [], 0, false, false⟩ "".data rfl

theorem lineBytesSum_nil : lineBytesSum [] = 0 := rfl

theorem lineBytesSum_cons (m : GrepMatch) (t : List GrepMatch) :
    lineBytesSum (m :: t) = byteLen (serializeMatch m ++ ['\n']) + lineBytesSum t := by
  simp [lineBytesSum]

theorem renderLoopGo_spec (maxB : Nat) :
    ∀ (ls : List GrepMatch) (bytes : Nat),
      ∃ k, k ≤ ls.length ∧
        (renderLoopGo maxB bytes ls).1 = (ls.take k).map serializeMatch ∧
        ((renderLoopGo maxB bytes ls).2 = true ↔ k < ls.length) ∧
        (∀ j, j ≤ k → 1 ≤ j → bytes + lineBytesSum (ls.take j) ≤ maxB) ∧
        (k < ls.length → maxB < bytes + lineBytesSum (ls.take (k + 1))) := by
  intro ls
  induction ls with
  | nil =>
    intro bytes
    refine ⟨0, by simp, by simp [renderLoopGo], by simp [renderLoopGo], ?_, ?_⟩
    · intro j hj h1j
      omega
    · intro h
      simp at h
  | cons m rest ih =>
    intro bytes
    by_cases hex : bytes + byteLen (serializeMatch m ++ ['\n']) > maxB
    · refine ⟨0, by simp, ?_, ?_, ?_, ?_⟩
      · rw [renderLoopGo, if_pos hex]
        simp
      · rw [renderLoopGo, if_pos hex]
        simp
      · intro j hj h1j
        omega
      · intro _
        rw [List.take_succ_cons, List.take_zero, lineBytesSum_cons, lineBytesSum_nil]
        omega
    · obtain ⟨k, hk, h1, h2, h3, h4⟩ := ih (bytes + byteLen (serializeMatch m ++ ['\n']))
      refine ⟨k + 1, by simpa using hk, ?_, ?_, ?_, ?_⟩
      · rw [renderLoopGo, if_neg hex]
        simp only [List.take_succ_cons, List.map_cons]
        rw [h1]
      · rw [renderLoopGo, if_neg hex]
        simpa using h2
      · intro j hj h1j
        cases j with
        | zero => omega
        | succ j' =>
          rw [List.take_succ_cons, lineBytesSum_cons]
          cases Nat.eq_zero_or_pos j' with
          | inl hz =>
            subst hz
            rw [List.take_zero, lineBytesSum_nil]
            omega
          | inr hpos =>
            have := h3 j' (by omega) (by omega)
            omega
      · intro hlt
        rw [List.take_succ_cons, lineBytesSum_cons]
        have := h4 (by simpa using hlt)
        omega

/-- C8: during final rendering with byte budget `maxOutputBytes`, the
serialized match lines are a prefix of the sorted match list; rendering
stops exactly at the first match whose inclusion would exceed the
budget, and the byte-truncation flag is set precisely when some sorted
match is left unrendered. Byte truncation does not touch the collected
set — the `matches=` header always reports the full match count — and it
is independent of count truncation, whose trailer adds exactly one line
regardless of the byte budget. -/
theorem formatCompact_byte_truncation (ms : List GrepMatch) (mm : Nat)
    (mt : Bool) (maxB : Nat) :
    (∃ k, k ≤ (sortMatches ms).length ∧
      (renderLoopGo maxB (byteLen (headerLine (sortMatches ms).length ++ ['\n']))
          (sortMatches ms)).1 = ((sortMatches ms).take k).map serializeMatch ∧
      ((renderLoopGo maxB (byteLen (headerLine (sortMatches ms).length ++ ['\n']))
          (sortMatches ms)).2 = true ↔ k < (sortMatches ms).length) ∧
      (∀ j, j ≤ k → 1 ≤ j → renderedBytes (sortMatches ms) j ≤ maxB) ∧
      (k < (sortMatches ms).length → maxB < renderedBytes (sortMatches ms) (k + 1))) ∧
    ((formatCompactLines ms mm mt maxB).head? = some (headerLine ms.length)) ∧
    ((formatCompactLines ms mm true maxB).length =
      (formatCompactLines ms mm false maxB).length + 1) := by
  refine ⟨?_, ?_, ?_⟩
  · obtain ⟨k, hk, h1, h2, h3, h4⟩ := renderLoopGo_spec maxB (sortMatches ms)
      (byteLen (headerLine (sortMatches ms).length ++ ['\n']))
    exact ⟨k, hk, h1, h2, h3, h4⟩
  · rw [formatCompactLines]
    simp only [List.cons_append, List.head?_cons]
    have hlen : (sortMatches ms).length = ms.length :=
      List.length_insertionSort matchLe ms
    rw [hlen]
  · rw [formatCompactLines, formatCompactLines]
    simp [List.length_append]
    omega

/-- Byte-truncation witness: one short match under a tight budget. -/
theorem formatCompact_byte_truncation_witness :
    ((formatCompactLines [⟨"a".data, 1, "hi".data⟩] 7 true 10).head? =
      some (headerLine 1)) ∧
    ((formatCompactLines [⟨"a".data, 1, "hi".data⟩] 7 true 10).length =
      (formatCompactLines [⟨"a".data, 1, "hi".data⟩] 7 false 10).length + 1) :=
  ⟨(formatCompact_byte_truncation [⟨"a".data, 1, "hi".data⟩] 7 true 10).2.1,
    (formatCompact_byte_truncation [⟨"a".data, 1, "hi".data⟩] 7 true 10).2.2⟩

theorem setDedup_pairwise_ne (l : List Str) : (setDedup l).Pairwise (· ≠ ·) := by
  induction l with
  | nil => exact List.Pairwise.nil
  | cons x xs ih =>
    rw [setDedup]
    refine List.pairwise_cons.mpr ⟨?_, ih.filter _⟩
    intro y hy
    have h := List.of_mem_filter hy
    rw [bne_iff_ne] at h
    exact h.symm

/-- C9 (amended): initial root discovery and `setWorkspaceRoot` always
install a duplicate-free registry (the former deduplicates the resolved
entries through a JS `Set`); `setWorkspaceRoots`, however, performs no
deduplication — it installs the resolved caller list verbatim, so its
result is duplicate-free exactly when the resolved entries already are
(the counterexample shows duplicates surviving). -/
theorem workspaceRoots_dedup :
    (∀ (primary : Str) (envRoots argRoots : List Str) (cwd : Str),
      (initWorkspaceRoots primary envRoots argRoots cwd).Pairwise (· ≠ ·)) ∧
    (∀ cwd root : Str, (setWorkspaceRoot cwd root).Pairwise (· ≠ ·)) ∧
    (∀ (cwd : Str) (prev roots : List Str), roots ≠ [] →
      (roots.map (pathResolve cwd)).Pairwise (· ≠ ·) →
      (setWorkspaceRoots cwd prev roots).Pairwise (· ≠ ·)) := by
  refine ⟨?_, ?_, ?_⟩
  · intro primary envRoots argRoots cwd
    exact setDedup_pairwise_ne _
  · intro cwd root
    exact List.pairwise_singleton _ _
  · intro cwd prev roots hne hp
    rw [setWorkspaceRoots, if_neg (by simpa using hne)]
    exact hp

/-- C9 counterexample: `setWorkspaceRoots` called with a duplicated
entry installs the duplicate unchanged, so the registry holds two equal
roots after normalization. -/
theorem setWorkspaceRoots_dup_cex :
    setWorkspaceRoots "/".data ["/w".data] ["/a".data, "/a".data] =
        ["/a".data, "/a".data] ∧
    ¬(setWorkspaceRoots "/".data ["/w".data]
        ["/a".data, "/a".data]).Pairwise (· ≠ ·) := by
  constructor
  · rfl
  · intro h
    have := List.pairwise_cons.mp h
    exact this.1 "/a".data (List.mem_cons_self _ _) rfl

/-- Root-deduplication witness: discovery with a repeated extra root
still yields a duplicate-free registry, and `setWorkspaceRoots` with
distinct entries stays duplicate-free. -/
theorem workspaceRoots_dedup_witness :
    (initWorkspaceRoots "/ws".data ["/x".data, "/x".data] ["/ws".data]
      "/".data).Pairwise (· ≠ ·) ∧
    (setWorkspaceRoots "/".data ["/w".data] ["/a".data, "/b".data]).Pairwise (· ≠ ·) :=
  ⟨workspaceRoots_dedup.1 "/ws".data ["/x".data, "/x".data] ["/ws".data] "/".data,
    workspaceRoots_dedup.2.2 "/".data ["/w".data] ["/a".data, "/b".data]
      (by decide) (by decide)⟩
